import Mathlib

/-!
Verification of the batch fan-out / completion-reconciliation core of
`src/server.mjs` (image-variations service backed by an external record
store and an external generation service).

Strings are modelled as `List Char` so that the comma-separated id-set
encoding used by the record fields ("Request IDs", "Seen IDs",
"Failed IDs") can be reasoned about character by character.  Wall-clock
timestamps (`nowISO()`) are passed in as explicit parameters.  Network
reads/writes of the record store become explicit state passing over a
`Batch` record.
-/

namespace ImageVariations

/-- Character-list strings, the carrier for all record fields. -/
abbrev Str := List Char

/-- JS `String.prototype.trim` whitespace test (the characters relevant
to this code base). -/
def isWS (c : Char) : Bool := c = ' ' || c = '\t' || c = '\n' || c = '\r'

/-- JS `s.trim()`: drop whitespace from both ends. -/
def trim (s : Str) : Str :=
  ((s.dropWhile isWS).reverse.dropWhile isWS).reverse

/-- JS `s.split(",")`: split on every comma; `"".split(",") = [""]`. -/
def splitC : Str → List Str
  | [] => [[]]
  | c :: rest =>
    if c = ',' then [] :: splitC rest
    else
      match splitC rest with
      | [] => [[c]]
      | t :: ts => (c :: t) :: ts

/-- `s.split(",").map(t => t.trim()).filter(Boolean)`: the trimmed
non-empty tokens of a comma-separated field, in order (duplicates kept). -/
def tokens (s : Str) : List Str :=
  ((splitC s).map trim).filter (fun t => !t.isEmpty)

/-- JS `Set.prototype.add`: append iff not already present (insertion
order preserved). -/
def jsSetAdd (l : List Str) (x : Str) : List Str :=
  if x ∈ l then l else l ++ [x]

/-- JS `new Set(array)`: dedup keeping first occurrences. -/
def jsSetOf (l : List Str) : List Str := l.foldl jsSetAdd []

/-- JS `array.join(", ")`. -/
def joinCS : List Str → Str
  | [] => []
  | [x] => x
  | x :: y :: rest => x ++ ',' :: ' ' :: joinCS (y :: rest)

/-- `src/server.mjs` `mergeIds`: parse the existing field into a set of
trimmed non-empty tokens, add the new ids (raw), re-join with `", "`. -/
def mergeIds (existing : Str) (newIds : List Str) : Str :=
  joinCS (newIds.foldl jsSetAdd (jsSetOf (tokens existing)))

/-- `src/server.mjs` `parseIds`: the set of trimmed non-empty tokens of a
comma-separated field (insertion-ordered, duplicate-free list). -/
def parseIds (s : Str) : List Str := jsSetOf (tokens s)

/-! ## The batch record

One Airtable record per batch; the fields the core reads and writes.
An `atPatch` with a set of fields becomes a structure update touching
exactly those fields. -/

/-- One entry of the `Output` attachment list: `{ url, filename }`. -/
structure OutputEntry where
  url : Str
  filename : Str
deriving DecidableEq

/-- The persisted batch record (the fields of the Airtable row that the
core touches). `completedAt` is the raw "Completed At" field, empty when
unset. -/
structure Batch where
  prompt : Str
  subject : Str
  size : Str
  status : Str
  requestIds : Str
  seenIds : Str
  failedIds : Str
  output : List OutputEntry
  lastUpdate : Str
  completedAt : Str
  model : Str
deriving DecidableEq

def processingS : Str := "processing".data
def completedS : Str := "completed".data

/-- Filename convention `var_${requestId}_${i}.png` from `appendOutputs`. -/
def outFilename (requestId : Str) (i : Nat) : Str :=
  "var_".data ++ requestId ++ "_".data ++ (Nat.repr i).data ++ ".png".data

/-- `markCompleted`'s guard: `req.size > 0 && [...req].every(id => seen.has(id))`. -/
def completedCond (b : Batch) : Bool :=
  let req := parseIds b.requestIds
  let seen := parseIds b.seenIds
  !req.isEmpty && req.all (fun id => decide (id ∈ seen))

/-- `src/server.mjs` `markCompleted`: re-read the record, and when every
persisted request id is in the seen set (and there is at least one),
patch `Status := "completed"` and stamp `Completed At := nowISO()`.
`now` stands for the `nowISO()` call. -/
def markCompleted (b : Batch) (now : Str) : Batch :=
  if completedCond b then { b with status := completedS, completedAt := now }
  else b

/-- `src/server.mjs` `appendOutputs`: read the record, append the new
output entries to `Output` (no duplicate-id check), merge `requestId`
into `Seen IDs` (and into `Failed IDs` when `failed`), stamp
`Last Update`. -/
def appendOutputs (b : Batch) (outputs : List Str) (requestId : Str)
    (failed : Bool) (now : Str) : Batch :=
  { b with
    output := b.output ++ (outputs.enum.map fun p => ⟨p.2, outFilename requestId p.1⟩)
    seenIds := mergeIds b.seenIds [requestId]
    failedIds := if failed then mergeIds b.failedIds [requestId] else b.failedIds
    lastUpdate := now }

/-- One Completion Reconciler invocation as performed by both channels:
`appendOutputs` followed by `markCompleted`, with the two `nowISO()`
reads passed explicitly. -/
structure Invocation where
  requestId : Str
  outputs : List Str
  failed : Bool
  t1 : Str
  t2 : Str
deriving DecidableEq

def reconcile (b : Batch) (inv : Invocation) : Batch :=
  markCompleted (appendOutputs b inv.outputs inv.requestId inv.failed inv.t1) inv.t2

/-- A sequence of Reconciler invocations applied to a batch. -/
def runTrace (b : Batch) (invs : List Invocation) : Batch :=
  invs.foldl reconcile b

/-! ## Batch Coordinator (`startVariations`) -/

/-- `Math.max(1, Math.min(10, Number(f["Batch Count"]) || 4))`.
`none` models a missing / non-numeric field (`Number` gives `NaN`,
which is falsy); a stored `0` is also falsy, so both fall back to 4. -/
def batchCount (v : Option Int) : Int :=
  let n : Int := match v with
    | none => 4
    | some k => if k = 0 then 4 else k
  max 1 (min 10 n)

/-- The reset patch at the start of `startVariations`: `Status :=
"processing"`, empty id fields, fresh `Last Update`, `Model` and `Size`
rewritten. (`Completed At` is not part of this patch.) -/
def resetBatch (b : Batch) (sz : Str) (now : Str) : Batch :=
  { b with status := processingS, requestIds := [], seenIds := [],
           failedIds := [], lastUpdate := now,
           model := "Seedream v4 (edit-sequential)".data, size := sz }

/-- The submission loop of `startVariations`: one entry per attempted
submission, `some rid` when `submitVariation` returned a request id,
`none` when it threw (`SubmissionError`).  The loop catches the error,
logs, and continues; only successful ids are pushed onto `requestIds`. -/
def fanoutLoop : List (Option Str) → List Str
  | [] => []
  | some rid :: rest => rid :: fanoutLoop rest
  | none :: rest => fanoutLoop rest

/-- The single write after the loop: `atPatch(recordId, { "Request IDs":
requestIds.join(", ") })`. -/
def writeRequestIds (b : Batch) (rids : List Str) : Batch :=
  { b with requestIds := joinCS rids }

/-- The batch state right after `startVariations` finished its fan-out:
reset patch, then the one `Request IDs` write with the successfully
submitted ids. -/
def afterFanout (b : Batch) (sz : Str) (now : Str) (rids : List Str) : Batch :=
  writeRequestIds (resetBatch b sz now) rids

/-! ## Poller (`pollUntilDone`) -/

/-- What one `getResult` call produced: a normalized `(status, outputs)`
pair, or a thrown transport/parse error. -/
inductive PollStep where
  | resp (status : Str) (outputs : List Str)
  | err
deriving DecidableEq

/-- `["completed", "succeeded"].includes(status)`. -/
def isSuccessStatus (s : Str) : Bool :=
  s = "completed".data || s = "succeeded".data

/-- `["failed", "error"].includes(status)`. -/
def isFailureStatus (s : Str) : Bool :=
  s = "failed".data || s = "error".data

/-- The per-job outcome handed to the Reconciler: the `outputs` argument
and the `failed` flag of the resulting `appendOutputs` call. -/
abbrev Outcome := List Str × Bool

/-- `src/server.mjs` `pollUntilDone`, reduced to the Reconciler
invocations it performs.  `deadline` is `start + 20*60*1000` ms; each
loop iteration is an observed `(Date.now(), getResult result)` pair.
An exhausted step list models the clock passing the deadline, which is
also the timeout branch after the `while`. -/
def pollUntilDone (deadline : Nat) : List (Nat × PollStep) → List Outcome
  | [] => [([], true)]
  | (now, step) :: rest =>
    if now < deadline then
      match step with
      | .err => [([], true)]
      | .resp st outs =>
        if isSuccessStatus st then [(outs, false)]
        else if isFailureStatus st then [([], true)]
        else pollUntilDone deadline rest
    else [([], true)]

/-! ## Push Listener (`POST /webhooks/wavespeed`) -/

/-- The volatile Job Registry `requestMap`: request id → record id. -/
abbrev Registry := List (Str × Str)

def regLookup (reg : Registry) (rid : Str) : Option Str :=
  match reg.find? (fun p => decide (p.1 = rid)) with
  | some p => some p.2
  | none => none

/-- The webhook handler, reduced to its observable effect: the HTTP
status code it answers with, the Reconciler invocations it makes (as
`(recordId, outcome)` pairs), and the resulting record store.  The
store is a map from record id to batch. -/
def webhookWavespeed (reg : Registry) (requestId : Str) (status : Str)
    (outputs : List Str) (store : Str → Batch) (t1 t2 : Str) :
    Nat × List (Str × Outcome) × (Str → Batch) :=
  match regLookup reg requestId with
  | none => (202, [], store)
  | some recId =>
    if isSuccessStatus status then
      (200, [(recId, (outputs, false))],
       fun r => if r = recId then
         reconcile (store recId) ⟨requestId, outputs, false, t1, t2⟩ else store r)
    else if isFailureStatus status then
      (200, [(recId, ([], true))],
       fun r => if r = recId then
         reconcile (store recId) ⟨requestId, [], true, t1, t2⟩ else store r)
    else (200, [], store)

/-- The output entries one `appendOutputs` call builds for a job. -/
def outEntries (requestId : Str) (outputs : List Str) : List OutputEntry :=
  outputs.enum.map fun p => ⟨p.2, outFilename requestId p.1⟩

/-- `true` iff a poll response is neither a terminal success nor a
terminal failure (the branch in which the loop sleeps and retries). -/
def nonTerminalStep : PollStep → Bool
  | .resp st _ => !isSuccessStatus st && !isFailureStatus st
  | .err => false

/-- A concrete already-completed batch whose single job `a` has been
seen, used for concrete evaluations of the Reconciler. -/
def doneBatch : Batch :=
  ⟨"p".data, "s".data, "1024x1344".data, completedS, "a".data, "a".data,
   [], [], "T0".data, "T1".data, []⟩

/-- A concrete duplicate terminal notification for job `a` carrying one
output url, arriving at time `T2`. -/
def dupInv : Invocation :=
  ⟨"a".data, ["u".data], false, "T2".data, "T2".data⟩

/-! ## Sanity checks on the id-set encoding -/

example : tokens "a, b".data = ["a".data, "b".data] := by decide
example : mergeIds "a, b".data ["b".data, "c".data] = "a, b, c".data := by decide
example : parseIds "".data = [] := by decide
example : parseIds " a ,,b".data = ["a".data, "b".data] := by decide
example : mergeIds "".data ["x".data] = "x".data := by decide

/-! ## Lemmas about the comma-separated id-set encoding -/

theorem splitC_ne_nil (s : Str) : splitC s ≠ [] := by
  cases s with
  | nil => simp [splitC]
  | cons c rest =>
    simp only [splitC]
    split
    · simp
    · split <;> simp

theorem splitC_append (a b : Str) :
    splitC (a ++ ',' :: b) = splitC a ++ splitC b := by
  induction a with
  | nil => simp [splitC]
  | cons c a ih =>
    by_cases hc : c = ','
    · subst hc
      simp [splitC, ih]
    · simp only [List.cons_append, splitC, if_neg hc]
      cases h : splitC a with
      | nil => exact absurd h (splitC_ne_nil a)
      | cons t ts =>
        simp only [List.append_eq]
        rw [ih, h]
        simp

theorem not_comma_mem_splitC {t s : Str} (h : t ∈ splitC s) : ',' ∉ t := by
  induction s generalizing t with
  | nil =>
    simp [splitC] at h
    subst h; simp
  | cons c rest ih =>
    simp only [splitC] at h
    split at h
    · rcases List.mem_cons.mp h with rfl | h2
      · simp
      · exact ih h2
    · rename_i hc
      split at h
      · rename_i heq
        exact absurd heq (splitC_ne_nil rest)
      · rename_i u us heq
        have hu : u ∈ splitC rest := by rw [heq]; exact List.mem_cons_self u us
        rcases List.mem_cons.mp h with rfl | h2
        · intro hmem
          rcases List.mem_cons.mp hmem with h1 | h1
          · exact hc h1.symm
          · exact ih hu h1
        · exact ih (by rw [heq]; exact List.mem_cons_of_mem u h2)

theorem splitC_eq_single {s : Str} (h : ',' ∉ s) : splitC s = [s] := by
  induction s with
  | nil => rfl
  | cons c rest ih =>
    have hc : c ≠ ',' := fun he => h (he ▸ List.mem_cons_self c rest)
    have h' : ',' ∉ rest := fun hm => h (List.mem_cons_of_mem _ hm)
    simp [splitC, hc, ih h']

theorem dropWhile_idem (p : α → Bool) (l : List α) :
    (l.dropWhile p).dropWhile p = l.dropWhile p := by
  induction l with
  | nil => rfl
  | cons a l ih =>
    cases h : p a with
    | true => simp [List.dropWhile_cons, h, ih]
    | false => simp [List.dropWhile_cons, h]

theorem dropWhile_eq_self_of_prefix (p : α → Bool) {u v : List α}
    (hv : v <+: u) (hu : u.dropWhile p = u) : v.dropWhile p = v := by
  cases v with
  | nil => rfl
  | cons a v' =>
    rcases hv with ⟨t, rfl⟩
    cases hp : p a with
    | false => simp [List.dropWhile_cons, hp]
    | true =>
      exfalso
      rw [List.cons_append, List.dropWhile_cons_of_pos hp] at hu
      have hlen := congrArg List.length hu
      have hle : ((v' ++ t).dropWhile p).length ≤ (v' ++ t).length :=
        (List.dropWhile_sublist p).length_le
      simp only [List.length_cons, List.length_append] at hlen hle
      omega

theorem dropWhile_suffix (p : α → Bool) (l : List α) : l.dropWhile p <:+ l :=
  ⟨l.takeWhile p, List.takeWhile_append_dropWhile p l⟩

theorem trim_prefix_dropWhile (s : Str) : trim s <+: s.dropWhile isWS := by
  have h1 : (s.dropWhile isWS).reverse.dropWhile isWS <:+ (s.dropWhile isWS).reverse :=
    dropWhile_suffix isWS _
  have h2 := List.reverse_prefix.mpr h1
  simpa [trim] using h2

theorem dropWhile_trim (s : Str) : (trim s).dropWhile isWS = trim s :=
  dropWhile_eq_self_of_prefix isWS (trim_prefix_dropWhile s) (dropWhile_idem isWS s)

theorem trim_idem (s : Str) : trim (trim s) = trim s := by
  have h1 : (trim s).dropWhile isWS = trim s := dropWhile_trim s
  have h2 : (trim s).reverse.dropWhile isWS = (trim s).reverse := by
    rw [show (trim s).reverse = (s.dropWhile isWS).reverse.dropWhile isWS by
      simp [trim]]
    exact dropWhile_idem isWS _
  conv_lhs => rw [trim]
  rw [h1, h2, List.reverse_reverse]

theorem trim_subset {c : Char} {s : Str} (h : c ∈ trim s) : c ∈ s := by
  simp only [trim, List.mem_reverse] at h
  have h1 : c ∈ (s.dropWhile isWS).reverse := (List.dropWhile_sublist isWS).subset h
  rw [List.mem_reverse] at h1
  exact (List.dropWhile_sublist isWS).subset h1

theorem trim_cons_ws {c : Char} (hc : isWS c = true) (s : Str) :
    trim (c :: s) = trim s := by
  simp [trim, List.dropWhile_cons, hc]

theorem tokens_nil : tokens [] = [] := by decide

theorem tokens_append (a b : Str) :
    tokens (a ++ ',' :: b) = tokens a ++ tokens b := by
  simp [tokens, splitC_append]

theorem tokens_cons_ws {c : Char} (hc : isWS c = true) (s : Str) :
    tokens (c :: s) = tokens s := by
  have hcc : c ≠ ',' := by
    intro h; subst h; simp [isWS] at hc
  cases hs : splitC s with
  | nil => exact absurd hs (splitC_ne_nil s)
  | cons t ts =>
    simp [tokens, splitC, hcc, hs, trim_cons_ws hc]

theorem tokens_joinCS (l : List Str) : tokens (joinCS l) = (l.map tokens).flatten := by
  induction l with
  | nil => simpa using tokens_nil
  | cons x xs ih =>
    cases xs with
    | nil => simp [joinCS]
    | cons y ys =>
      have step : joinCS (x :: y :: ys) = x ++ ',' :: ' ' :: joinCS (y :: ys) := rfl
      rw [step, tokens_append, tokens_cons_ws (by decide), ih]
      simp

theorem trim_of_mem_tokens {t s : Str} (h : t ∈ tokens s) :
    trim t = t ∧ t ≠ [] ∧ ',' ∉ t := by
  simp only [tokens, List.mem_filter, List.mem_map] at h
  obtain ⟨⟨u, hu, rfl⟩, hne⟩ := h
  refine ⟨trim_idem u, ?_, ?_⟩
  · simpa using hne
  · exact fun hm => not_comma_mem_splitC hu (trim_subset hm)

theorem tokens_self {t : Str} (h1 : trim t = t) (h2 : t ≠ []) (h3 : ',' ∉ t) :
    tokens t = [t] := by
  simp [tokens, splitC_eq_single h3, h1, h2]

theorem mem_jsSetAdd {x y : Str} {l : List Str} :
    x ∈ jsSetAdd l y ↔ x ∈ l ∨ x = y := by
  unfold jsSetAdd
  split
  · rename_i hy
    constructor
    · exact Or.inl
    · rintro (h | rfl)
      · exact h
      · exact hy
  · simp

theorem mem_foldl_jsSetAdd {x : Str} (L : List Str) (init : List Str) :
    x ∈ L.foldl jsSetAdd init ↔ x ∈ init ∨ x ∈ L := by
  induction L generalizing init with
  | nil => simp
  | cons y L ih =>
    rw [List.foldl_cons, ih, mem_jsSetAdd]
    simp only [List.mem_cons]
    tauto

theorem mem_jsSetOf {x : Str} (l : List Str) : x ∈ jsSetOf l ↔ x ∈ l := by
  unfold jsSetOf
  rw [mem_foldl_jsSetAdd]
  simp

theorem mem_parseIds {t s : Str} : t ∈ parseIds s ↔ t ∈ tokens s :=
  mem_jsSetOf _

/-- The central algebraic fact: parsing the result of `mergeIds` yields
exactly the tokens of the existing field together with the tokens of
every added id. -/
theorem mem_tokens_mergeIds {t : Str} (s : Str) (L : List Str) :
    t ∈ tokens (mergeIds s L) ↔ t ∈ tokens s ∨ ∃ l ∈ L, t ∈ tokens l := by
  unfold mergeIds
  rw [tokens_joinCS]
  simp only [List.mem_flatten, List.mem_map]
  constructor
  · rintro ⟨w, ⟨u, hu, rfl⟩, ht⟩
    rw [mem_foldl_jsSetAdd, mem_jsSetOf] at hu
    rcases hu with hu | hu
    · left
      obtain ⟨h1, h2, h3⟩ := trim_of_mem_tokens hu
      rw [tokens_self h1 h2 h3] at ht
      simp only [List.mem_singleton] at ht
      exact ht ▸ hu
    · right; exact ⟨u, hu, ht⟩
  · rintro (ht | ⟨l, hl, ht⟩)
    · obtain ⟨h1, h2, h3⟩ := trim_of_mem_tokens ht
      refine ⟨tokens t, ⟨t, ?_, rfl⟩, ?_⟩
      · rw [mem_foldl_jsSetAdd, mem_jsSetOf]; exact Or.inl ht
      · rw [tokens_self h1 h2 h3]; simp
    · exact ⟨tokens l,
        ⟨l, by rw [mem_foldl_jsSetAdd, mem_jsSetOf]; exact Or.inr hl, rfl⟩, ht⟩

/-! ## Lemmas about one Reconciler invocation -/

theorem reconcile_output (b : Batch) (inv : Invocation) :
    (reconcile b inv).output = b.output ++ outEntries inv.requestId inv.outputs := by
  unfold reconcile markCompleted appendOutputs outEntries
  split <;> split <;> rfl

theorem reconcile_seenIds (b : Batch) (inv : Invocation) :
    (reconcile b inv).seenIds = mergeIds b.seenIds [inv.requestId] := by
  unfold reconcile markCompleted appendOutputs
  split <;> split <;> rfl

theorem reconcile_failedIds (b : Batch) (inv : Invocation) :
    (reconcile b inv).failedIds =
      if inv.failed then mergeIds b.failedIds [inv.requestId] else b.failedIds := by
  unfold reconcile markCompleted appendOutputs
  split <;> split <;> rfl

theorem reconcile_requestIds (b : Batch) (inv : Invocation) :
    (reconcile b inv).requestIds = b.requestIds := by
  unfold reconcile markCompleted appendOutputs
  split <;> split <;> rfl

theorem reconcile_status (b : Batch) (inv : Invocation) :
    (reconcile b inv).status =
      if completedCond (appendOutputs b inv.outputs inv.requestId inv.failed inv.t1)
      then completedS else b.status := by
  unfold reconcile markCompleted
  split <;> rename_i h <;> simp [appendOutputs, h]

theorem reconcile_completedAt (b : Batch) (inv : Invocation) :
    (reconcile b inv).completedAt =
      if completedCond (appendOutputs b inv.outputs inv.requestId inv.failed inv.t1)
      then inv.t2 else b.completedAt := by
  unfold reconcile markCompleted
  split <;> rename_i h <;> simp [appendOutputs, h]

theorem mem_tokens_merge_single {t : Str} (s x : Str) :
    t ∈ tokens (mergeIds s [x]) ↔ t ∈ tokens s ∨ t ∈ tokens x := by
  rw [mem_tokens_mergeIds]
  simp

theorem jsSetOf_eq_nil {l : List Str} : jsSetOf l = [] ↔ l = [] := by
  constructor
  · intro h
    cases l with
    | nil => rfl
    | cons x xs =>
      have hx : x ∈ jsSetOf (x :: xs) := (mem_jsSetOf _).mpr (List.mem_cons_self x xs)
      rw [h] at hx
      cases hx
  · rintro rfl; rfl

theorem completedCond_iff (b : Batch) :
    completedCond b = true ↔
      tokens b.requestIds ≠ [] ∧
      ∀ t ∈ tokens b.requestIds, t ∈ tokens b.seenIds := by
  unfold completedCond
  rw [Bool.and_eq_true, List.all_eq_true]
  constructor
  · rintro ⟨h1, h2⟩
    constructor
    · intro hnil
      rw [Bool.not_eq_true'] at h1
      have : parseIds b.requestIds = [] := by
        unfold parseIds; rw [hnil]; rfl
      simp [this] at h1
    · intro t ht
      have := h2 t ((mem_parseIds).mpr ht)
      rw [decide_eq_true_eq] at this
      exact (mem_parseIds).mp this
  · rintro ⟨h1, h2⟩
    constructor
    · rw [Bool.not_eq_true']
      have : parseIds b.requestIds ≠ [] := fun h => h1 (jsSetOf_eq_nil.mp h)
      cases hp : parseIds b.requestIds with
      | nil => exact absurd hp this
      | cons x xs => rfl
    · intro t ht
      rw [decide_eq_true_eq, mem_parseIds]
      exact h2 t ((mem_parseIds).mp ht)

theorem completedCond_append_mono (b : Batch) (outs : List Str) (rid : Str)
    (failed : Bool) (now : Str) (h : completedCond b = true) :
    completedCond (appendOutputs b outs rid failed now) = true := by
  rw [completedCond_iff] at h ⊢
  obtain ⟨h1, h2⟩ := h
  refine ⟨h1, fun t ht => ?_⟩
  have hs : (appendOutputs b outs rid failed now).seenIds = mergeIds b.seenIds [rid] := rfl
  rw [hs, mem_tokens_merge_single]
  exact Or.inl (h2 t ht)

theorem completedCond_reconcile (b : Batch) (inv : Invocation) :
    completedCond (reconcile b inv) =
      completedCond (appendOutputs b inv.outputs inv.requestId inv.failed inv.t1) := by
  unfold completedCond
  rw [reconcile_requestIds, reconcile_seenIds]
  rfl

theorem completedCond_empty_seen (b : Batch) (h : b.seenIds = []) :
    completedCond b = false := by
  have hnot : ¬ (completedCond b = true) := by
    rw [completedCond_iff]
    rintro ⟨h1, h2⟩
    cases hp : tokens b.requestIds with
    | nil => exact h1 hp
    | cons x xs =>
      have hx := h2 x (hp ▸ List.mem_cons_self x xs)
      rw [h, tokens_nil] at hx
      cases hx
  cases hcb : completedCond b
  · rfl
  · exact absurd hcb hnot

theorem subset_invariant_step (rids : List Str) (b : Batch) (inv : Invocation)
    (hb : b.requestIds = joinCS rids)
    (hrid : inv.requestId ∈ rids)
    (hseen : ∀ tk ∈ tokens b.seenIds, tk ∈ tokens b.requestIds)
    (hfail : ∀ tk ∈ tokens b.failedIds, tk ∈ tokens b.seenIds) :
    (reconcile b inv).requestIds = joinCS rids ∧
    (∀ tk ∈ tokens (reconcile b inv).seenIds, tk ∈ tokens (reconcile b inv).requestIds) ∧
    (∀ tk ∈ tokens (reconcile b inv).failedIds, tk ∈ tokens (reconcile b inv).seenIds) := by
  refine ⟨(reconcile_requestIds b inv).trans hb, ?_, ?_⟩
  · intro tk htk
    rw [reconcile_seenIds, mem_tokens_merge_single] at htk
    rw [reconcile_requestIds]
    rcases htk with h | h
    · exact hseen tk h
    · rw [hb, tokens_joinCS, List.mem_flatten]
      exact ⟨tokens inv.requestId, List.mem_map_of_mem tokens hrid, h⟩
  · intro tk htk
    rw [reconcile_failedIds] at htk
    rw [reconcile_seenIds, mem_tokens_merge_single]
    by_cases hf : inv.failed
    · rw [if_pos hf, mem_tokens_merge_single] at htk
      rcases htk with h | h
      · exact Or.inl (hfail tk h)
      · exact Or.inr h
    · rw [if_neg hf] at htk
      exact Or.inl (hfail tk htk)

theorem subset_invariant_trace (rids : List Str) (invs : List Invocation) (b : Batch)
    (hb : b.requestIds = joinCS rids)
    (hseen : ∀ tk ∈ tokens b.seenIds, tk ∈ tokens b.requestIds)
    (hfail : ∀ tk ∈ tokens b.failedIds, tk ∈ tokens b.seenIds)
    (hall : ∀ inv ∈ invs, inv.requestId ∈ rids) :
    (runTrace b invs).requestIds = joinCS rids ∧
    (∀ tk ∈ tokens (runTrace b invs).seenIds, tk ∈ tokens (runTrace b invs).requestIds) ∧
    (∀ tk ∈ tokens (runTrace b invs).failedIds, tk ∈ tokens (runTrace b invs).seenIds) := by
  induction invs generalizing b with
  | nil => exact ⟨hb, hseen, hfail⟩
  | cons inv invs ih =>
    have hstep := subset_invariant_step rids b inv hb
      (hall inv (List.mem_cons_self inv invs)) hseen hfail
    exact ih (reconcile b inv) hstep.1 hstep.2.1 hstep.2.2
      (fun i hi => hall i (List.mem_cons_of_mem inv hi))

theorem status_invariant_step (b : Batch) (inv : Invocation)
    (hiff : b.status = completedS ↔ completedCond b = true)
    (hstat : b.status = processingS ∨ b.status = completedS) :
    ((reconcile b inv).status = completedS ↔ completedCond (reconcile b inv) = true) ∧
    ((reconcile b inv).status = processingS ∨ (reconcile b inv).status = completedS) := by
  rw [reconcile_status, completedCond_reconcile]
  cases hc : completedCond (appendOutputs b inv.outputs inv.requestId inv.failed inv.t1) with
  | true =>
    rw [if_pos rfl]
    exact ⟨⟨fun _ => rfl, fun _ => rfl⟩, Or.inr rfl⟩
  | false =>
    rw [if_neg (by simp)]
    refine ⟨⟨fun hs => ?_, fun hf => by cases hf⟩, hstat⟩
    exact absurd (completedCond_append_mono b inv.outputs inv.requestId inv.failed inv.t1
      (hiff.mp hs)) (by simp [hc])

theorem status_invariant_trace (invs : List Invocation) (b : Batch)
    (hiff : b.status = completedS ↔ completedCond b = true)
    (hstat : b.status = processingS ∨ b.status = completedS) :
    ((runTrace b invs).status = completedS ↔ completedCond (runTrace b invs) = true) ∧
    ((runTrace b invs).status = processingS ∨ (runTrace b invs).status = completedS) := by
  induction invs generalizing b with
  | nil => exact ⟨hiff, hstat⟩
  | cons inv invs ih =>
    have hstep := status_invariant_step b inv hiff hstat
    exact ih (reconcile b inv) hstep.1 hstep.2

theorem runTrace_requestIds (invs : List Invocation) (b : Batch) :
    (runTrace b invs).requestIds = b.requestIds := by
  induction invs generalizing b with
  | nil => rfl
  | cons inv invs ih => exact (ih (reconcile b inv)).trans (reconcile_requestIds b inv)

/-! ## Claims -/

/-- C1, counterexample: the Reconciler is not idempotent per job id.  On
the concrete batch whose job `a` is already in `Seen IDs`, invoking the
reconciliation routine twice with the same `(jobId, outcome)` appends
the output entries a second time, so the final outputs list differs
from a single invocation's. -/
theorem reconcile_duplicate_appends_outputs :
    (reconcile (reconcile doneBatch dupInv) dupInv).output ≠
      (reconcile doneBatch dupInv).output := by decide

/-- C1, amended: invoking the Reconciler twice with the same
`(jobId, outcome)` yields the same final `seenIds` set as invoking it
once, but the outputs list receives the job's output entries again (the
source has no `jobId ∈ seenIds` duplicate check), so the invocation is
idempotent on `outputs` exactly when the outcome carries no outputs
(failure outcomes). -/
theorem reconcile_twice_seenIds_outputs (b : Batch) (inv : Invocation) :
    (∀ tk, tk ∈ tokens (reconcile (reconcile b inv) inv).seenIds ↔
        tk ∈ tokens (reconcile b inv).seenIds) ∧
    (reconcile (reconcile b inv) inv).output =
      (reconcile b inv).output ++ outEntries inv.requestId inv.outputs := by
  constructor
  · intro tk
    rw [reconcile_seenIds, reconcile_seenIds,
      mem_tokens_merge_single, mem_tokens_merge_single]
    tauto
  · exact reconcile_output (reconcile b inv) inv

/-- C2, counterexample: completion is not fully monotonic.  On a batch
already in status `completed`, a further Reconciler invocation keeps the
status but overwrites `Completed At` with a fresh timestamp
(`markCompleted` has no already-completed guard). -/
theorem reconcile_restamps_completedAt :
    doneBatch.status = completedS ∧
    (reconcile doneBatch dupInv).completedAt ≠ doneBatch.completedAt := by decide

/-- C2, amended: for a batch whose status is already `completed`, any
subsequent Reconciler invocation leaves the status equal to `completed`,
but re-stamps `completedAt` to the invocation's own timestamp whenever
the completion condition holds after the append (and leaves it
unchanged otherwise). -/
theorem completed_status_monotone_restamp (b : Batch) (inv : Invocation)
    (h : b.status = completedS) :
    (reconcile b inv).status = completedS ∧
    (reconcile b inv).completedAt =
      (if completedCond (appendOutputs b inv.outputs inv.requestId inv.failed inv.t1)
       then inv.t2 else b.completedAt) := by
  refine ⟨?_, reconcile_completedAt b inv⟩
  rw [reconcile_status]
  split
  · rfl
  · exact h

theorem completed_status_monotone_restamp_witness :
    (reconcile doneBatch dupInv).status = completedS ∧
    (reconcile doneBatch dupInv).completedAt =
      (if completedCond (appendOutputs doneBatch dupInv.outputs dupInv.requestId
          dupInv.failed dupInv.t1)
       then dupInv.t2 else doneBatch.completedAt) :=
  completed_status_monotone_restamp doneBatch dupInv (by decide)

/-- C3: starting from the state `startVariations` leaves behind (empty
`Seen IDs`/`Failed IDs`, `Request IDs` holding the submitted ids), after
any sequence of Reconciler invocations whose job ids come from the
submitted set — as every Poller's and every Registry-resolved push's id
does — the invariants `seenIds ⊆ jobIds` and `failedIds ⊆ seenIds` hold
(as sets of parsed id tokens). -/
theorem seenIds_failedIds_subset_invariant (b : Batch) (sz t : Str)
    (rids : List Str) (invs : List Invocation)
    (hall : ∀ inv ∈ invs, inv.requestId ∈ rids) :
    (∀ tk ∈ tokens (runTrace (afterFanout b sz t rids) invs).seenIds,
        tk ∈ tokens (runTrace (afterFanout b sz t rids) invs).requestIds) ∧
    (∀ tk ∈ tokens (runTrace (afterFanout b sz t rids) invs).failedIds,
        tk ∈ tokens (runTrace (afterFanout b sz t rids) invs).seenIds) := by
  have h0 : ∀ tk ∈ tokens ([] : Str), tk ∈ tokens (joinCS rids) := by
    rw [tokens_nil]; intro tk htk; cases htk
  have h1 : ∀ tk ∈ tokens ([] : Str), tk ∈ tokens ([] : Str) := fun tk htk => htk
  exact (subset_invariant_trace rids invs (afterFanout b sz t rids) rfl h0 h1 hall).2

theorem seenIds_failedIds_subset_invariant_witness :
    (∀ tk ∈ tokens (runTrace (afterFanout doneBatch [] [] ["a".data])
        [dupInv]).seenIds,
        tk ∈ tokens (runTrace (afterFanout doneBatch [] [] ["a".data])
          [dupInv]).requestIds) ∧
    (∀ tk ∈ tokens (runTrace (afterFanout doneBatch [] [] ["a".data])
        [dupInv]).failedIds,
        tk ∈ tokens (runTrace (afterFanout doneBatch [] [] ["a".data])
          [dupInv]).seenIds) :=
  seenIds_failedIds_subset_invariant doneBatch [] [] ["a".data] [dupInv]
    (by intro inv hinv; rw [List.mem_singleton] at hinv; subst hinv; decide)

/-- C4: after any sequence of Reconciler invocations on the post-fan-out
state, the batch's status is `completed` iff the persisted request-id
set is non-empty and contained in the seen set; in particular a batch
whose fan-out submitted zero jobs never leaves `processing`. -/
theorem completed_iff_all_seen (b : Batch) (sz t : Str) (rids : List Str)
    (invs : List Invocation) :
    ((runTrace (afterFanout b sz t rids) invs).status = completedS ↔
      (tokens (runTrace (afterFanout b sz t rids) invs).requestIds ≠ [] ∧
        ∀ tk ∈ tokens (runTrace (afterFanout b sz t rids) invs).requestIds,
          tk ∈ tokens (runTrace (afterFanout b sz t rids) invs).seenIds)) ∧
    (rids = [] → (runTrace (afterFanout b sz t rids) invs).status = processingS) := by
  have hst : (afterFanout b sz t rids).status = processingS := rfl
  have hiff0 : (afterFanout b sz t rids).status = completedS ↔
      completedCond (afterFanout b sz t rids) = true := by
    constructor
    · intro h
      rw [hst] at h
      exact absurd h (by decide)
    · intro h
      rw [completedCond_empty_seen _ rfl] at h
      cases h
  have htr := status_invariant_trace invs (afterFanout b sz t rids) hiff0 (Or.inl rfl)
  constructor
  · rw [htr.1]
    exact completedCond_iff _
  · intro hrids
    rcases htr.2 with h | h
    · exact h
    · exfalso
      have hc := (completedCond_iff _).mp (htr.1.mp h)
      have hreq : (runTrace (afterFanout b sz t rids) invs).requestIds = joinCS rids :=
        runTrace_requestIds invs _
      rw [hreq, hrids] at hc
      exact hc.1 tokens_nil

theorem completed_iff_all_seen_witness :
    (runTrace (afterFanout doneBatch [] [] ([] : List Str)) []).status = processingS :=
  (completed_iff_all_seen doneBatch [] [] [] []).2 rfl

/-- C5, counterexample: a requested batch count of 0 is falsy in
`Number(f["Batch Count"]) || 4`, so it falls back to the default 4
rather than being clamped to 1 as the claim states. -/
theorem batchCount_zero_defaults :
    batchCount (some 0) = 4 ∧ batchCount (some 0) ≠ 1 := by decide

/-- C5, amended: the fan-out count is `max(1, min(10, n || 4))`:
requested counts 0, 1, 10, 15 and a missing/non-numeric field map to 4,
1, 10, 10, 4 respectively (0 triggers the default, not the lower
clamp); the result always lies in `[1, 10]`; and when every submission
succeeds the submitted-id list has exactly one id per attempt. -/
theorem batchCount_clamp :
    batchCount (some 0) = 4 ∧ batchCount (some 1) = 1 ∧
    batchCount (some 10) = 10 ∧ batchCount (some 15) = 10 ∧
    batchCount none = 4 ∧
    (∀ v : Option Int, 1 ≤ batchCount v ∧ batchCount v ≤ 10) ∧
    (∀ ids : List Str, fanoutLoop (ids.map some) = ids) := by
  refine ⟨by decide, by decide, by decide, by decide, by decide, ?_, ?_⟩
  · intro v
    unfold batchCount
    exact ⟨le_max_left 1 _, max_le (by norm_num) (min_le_left 10 _)⟩
  · intro ids
    induction ids with
    | nil => rfl
    | cons x xs ih => simp [fanoutLoop, ih]

/-- C6: a transport/parse error while fetching a job's status makes the
poller perform exactly one failure reconciliation (empty outputs) and
stop; and a poll loop that never observes a terminal status before the
absolute deadline also reconciles the job exactly once as a failure. -/
theorem poller_failfast_and_timeout (deadline : Nat)
    (pre rest steps : List (Nat × PollStep)) (t : Nat) :
    ((∀ s ∈ pre, nonTerminalStep s.2 = true ∧ s.1 < deadline) → t < deadline →
      pollUntilDone deadline (pre ++ (t, PollStep.err) :: rest) = [([], true)]) ∧
    ((∀ s ∈ steps, nonTerminalStep s.2 = true) →
      pollUntilDone deadline steps = [([], true)]) := by
  constructor
  · intro hpre ht
    induction pre with
    | nil => simp [pollUntilDone, ht]
    | cons s pre ih =>
      obtain ⟨hnt, hlt⟩ := hpre s (List.mem_cons_self s pre)
      cases s with
      | mk now step =>
        cases step with
        | err => simp [nonTerminalStep] at hnt
        | resp st outs =>
          simp only [nonTerminalStep, Bool.and_eq_true, Bool.not_eq_true'] at hnt
          simp only [List.cons_append]
          simp [pollUntilDone, hlt, hnt.1, hnt.2]
          exact ih (fun s hs => hpre s (List.mem_cons_of_mem _ hs))
  · intro hsteps
    induction steps with
    | nil => rfl
    | cons s steps ih =>
      have hnt := hsteps s (List.mem_cons_self s steps)
      cases s with
      | mk now step =>
        cases step with
        | err => simp [nonTerminalStep] at hnt
        | resp st outs =>
          simp only [nonTerminalStep, Bool.and_eq_true, Bool.not_eq_true'] at hnt
          by_cases hlt : now < deadline
          · simp [pollUntilDone, hlt, hnt.1, hnt.2]
            exact ih (fun s hs => hsteps s (List.mem_cons_of_mem _ hs))
          · simp [pollUntilDone, hlt]

theorem poller_failfast_and_timeout_witness :
    (pollUntilDone 100 ([(0, PollStep.resp "processing".data [])] ++
      (5, PollStep.err) :: []) = [([], true)]) ∧
    (pollUntilDone 100 [(0, PollStep.resp "processing".data []),
      (200, PollStep.resp "processing".data [])] = [([], true)]) :=
  ⟨(poller_failfast_and_timeout 100 [(0, PollStep.resp "processing".data [])] []
      [(0, PollStep.resp "processing".data []),
        (200, PollStep.resp "processing".data [])] 5).1 (by decide) (by decide),
   (poller_failfast_and_timeout 100 [(0, PollStep.resp "processing".data [])] []
      [(0, PollStep.resp "processing".data []),
        (200, PollStep.resp "processing".data [])] 5).2 (by decide)⟩

/-- C7: a push notification whose request id is not in the Job Registry
is acknowledged with 202, triggers no Reconciler invocation, and leaves
the record store (every field of every batch) unchanged. -/
theorem webhook_unknown_job (reg : Registry) (requestId status : Str)
    (outputs : List Str) (store : Str → Batch) (t1 t2 : Str)
    (h : regLookup reg requestId = none) :
    webhookWavespeed reg requestId status outputs store t1 t2 = (202, [], store) := by
  unfold webhookWavespeed
  rw [h]

theorem webhook_unknown_job_witness :
    webhookWavespeed [] "x".data "completed".data [] (fun _ => doneBatch) [] [] =
      (202, [], fun _ => doneBatch) :=
  webhook_unknown_job [] "x".data "completed".data [] (fun _ => doneBatch) [] [] rfl

/-- C8: the fan-out loop collects exactly the ids of the submissions
that succeeded, in submission order; a failed submission is skipped
without aborting the remaining attempts and contributes nothing; the
single `Request IDs` write after the loop persists exactly that list. -/
theorem fanout_skips_failures (b : Batch) (results : List (Option Str)) :
    fanoutLoop results = results.filterMap id ∧
    (∀ pre post, fanoutLoop (pre ++ none :: post) = fanoutLoop (pre ++ post)) ∧
    (writeRequestIds b (fanoutLoop results)).requestIds =
      joinCS (results.filterMap id) := by
  have key : ∀ rs : List (Option Str), fanoutLoop rs = rs.filterMap id := by
    intro rs
    induction rs with
    | nil => rfl
    | cons o rest ih =>
      cases o with
      | none => simp [fanoutLoop, ih]
      | some rid => simp [fanoutLoop, ih]
  refine ⟨key results, ?_, ?_⟩
  · intro pre post
    rw [key, key]
    simp [List.filterMap_append]
  · show joinCS (fanoutLoop results) = joinCS (results.filterMap id)
    rw [key]

/-- C9: a Reconciler invocation (`appendOutputs` then `markCompleted`)
leaves the batch's `Request IDs` field and its input fields (`Prompt`,
`Subject`, `Size`, plus `Model`) unchanged: it writes only `Seen IDs`,
`Failed IDs`, `Output`, `Last Update`, `Status` and `Completed At`. -/
theorem reconcile_frame (b : Batch) (inv : Invocation) :
    (reconcile b inv).requestIds = b.requestIds ∧
    (reconcile b inv).prompt = b.prompt ∧
    (reconcile b inv).subject = b.subject ∧
    (reconcile b inv).size = b.size ∧
    (reconcile b inv).model = b.model := by
  unfold reconcile markCompleted appendOutputs
  refine ⟨?_, ?_, ?_, ?_, ?_⟩ <;> (split <;> split <;> rfl)

/-- C10: the id-set string encoding round-trips and deduplicates: for
every field string `s` and list of comma-free new ids `L`,
`parseIds (mergeIds s L)` is exactly `parseIds s` united with the
trimmed non-empty elements of `L` (so re-merging an id already present
leaves the set unchanged, and duplicate notifications never accumulate
duplicate ids). -/
theorem parseIds_mergeIds_union (s : Str) (L : List Str)
    (h : ∀ l ∈ L, ',' ∉ l) :
    ∀ t, t ∈ parseIds (mergeIds s L) ↔
      t ∈ parseIds s ∨ t ∈ (L.map trim).filter (fun x => !x.isEmpty) := by
  intro t
  rw [mem_parseIds, mem_parseIds, mem_tokens_mergeIds]
  have htok : ∀ l ∈ L, (t ∈ tokens l ↔ t = trim l ∧ (trim l).isEmpty = false) := by
    intro l hl
    rw [tokens, splitC_eq_single (h l hl)]
    constructor
    · intro hm
      rw [List.mem_filter] at hm
      obtain ⟨hm1, hm2⟩ := hm
      simp only [List.map_cons, List.map_nil, List.mem_singleton] at hm1
      subst hm1
      exact ⟨rfl, by simpa using hm2⟩
    · rintro ⟨rfl, hne⟩
      rw [List.mem_filter]
      exact ⟨by simp, by simp [hne]⟩
  constructor
  · rintro (hs | ⟨l, hl, hm⟩)
    · exact Or.inl hs
    · right
      obtain ⟨rfl, hne⟩ := (htok l hl).mp hm
      rw [List.mem_filter]
      exact ⟨List.mem_map_of_mem trim hl, by simp [hne]⟩
  · rintro (hs | hm)
    · exact Or.inl hs
    · right
      rw [List.mem_filter] at hm
      obtain ⟨hm1, hm2⟩ := hm
      rw [List.mem_map] at hm1
      obtain ⟨l, hl, rfl⟩ := hm1
      exact ⟨l, hl, (htok l hl).mpr ⟨rfl, by simpa using hm2⟩⟩

theorem parseIds_mergeIds_union_witness :
    ("b".data ∈ parseIds (mergeIds "a, b".data ["b".data, "c".data]) ↔
      "b".data ∈ parseIds "a, b".data ∨
      "b".data ∈ ((["b".data, "c".data].map trim).filter (fun x => !x.isEmpty))) :=
  parseIds_mergeIds_union "a, b".data ["b".data, "c".data] (by decide) "b".data

end ImageVariations
